import Mathlib

/-!
Verification of the GPath path-algebra library (`src/gpath/_gpath.py`, plus the
superseded single-module revision `gpath.py` for its ordering relation).

The Python code is shallowly embedded: the immutable `GPath` value becomes a
Lean structure, every method becomes a pure Lean function on that structure,
Python `int` becomes `Int`, Python `None`-returning resolvers become
`Option`-valued functions, and methods that raise `ValueError` on a bad
argument become `Option`-valued as well (with `none` standing for the raised
error).  `_validate`, which raises on an invalid instance, is modelled by the
`GPath.Valid` predicate appearing as a hypothesis of the theorems about the
operations that call it.
-/

namespace GPathLib

/-- The embedded path value: mirrors `GPath.__slots__`
(`_parts`, `_root`, `_drive`, `_parent_level`, `_encoding`). -/
structure GPath where
  parts : List String
  root : Bool
  drive : String
  parent_level : Int
  encoding : Option String
deriving DecidableEq, Repr

namespace GPath

/-- `GPath._validate`: raises unless `parent_level >= 0` and
`root ⟹ parent_level == 0`.  We model the raise as a validity predicate. -/
def Valid (p : GPath) : Prop :=
  0 ≤ p.parent_level ∧ (p.root = true → p.parent_level = 0)

instance (p : GPath) : Decidable (Valid p) := by
  unfold Valid; infer_instance

/-- `GPath._tuple`: the tuple of all fields, used by `__eq__` and `__hash__`.
Note that it includes `_encoding`. -/
def _tuple (p : GPath) : Bool × String × Int × List String × Option String :=
  (p.root, p.drive, p.parent_level, p.parts, p.encoding)

/-- The four semantic fields `(root, drive, parent_level, parts)` without the
encoding metadata, as named by the specification's equality contract. -/
def semTuple (p : GPath) : Bool × String × Int × List String :=
  (p.root, p.drive, p.parent_level, p.parts)

/-- `GPath.__eq__` between two `GPath` objects: compares `_tuple`s. -/
def eqB (a b : GPath) : Bool :=
  decide (a._tuple = b._tuple)

/-- `GPath.__bool__`: truthy iff rooted, or has a drive, or has a parent
level, or has at least one named part. -/
def boolB (p : GPath) : Bool :=
  p.root || p.drive ≠ "" || p.parent_level ≠ 0 || !p.parts.isEmpty

end GPath

/-! ### The normalizer (`_split_relative`, `_normalise_relative`, `__init__`) -/

/-- One step of the separator-collapsing loop in `_split_relative`
(`collapse=True`): a character equal to the delimiter that immediately
follows another delimiter is skipped.  `prev` plays the role of
`new_path[-1]`; the loop is seeded with the delimiter itself. -/
def _collapse (delim : Char) : Char → List Char → List Char
  | _, [] => []
  | prev, c :: rest =>
      if c = delim ∧ prev = delim then _collapse delim prev rest
      else c :: _collapse delim c rest

/-- `str.split` on a single-character delimiter, on the character list. -/
def splitChar (delim : Char) : List Char → List (List Char)
  | [] => [[]]
  | c :: rest =>
      match splitChar delim rest with
      | [] => if c = delim then [[], []] else [[c]]
      | s :: ss => if c = delim then [] :: s :: ss else (c :: s) :: ss

/-- `_split_relative(path, delimiters={"/", "\\"}, collapse=True)`:
replace every delimiter by one of them, collapse consecutive delimiters,
then split.  The empty string is returned whole, as `[""]`. -/
def _split_relative (path : List Char) : List String :=
  if path = [] then [""]
  else
    let replaced := path.map (fun c => if c = '\\' then '/' else c)
    let collapsed := _collapse '/' '/' replaced
    (splitChar '/' collapsed).map (fun l => String.mk l)

/-- One step of `_normalise_relative`'s scan: `""` and `"."` are dropped;
`".."` pops the last output element unless the output is empty or already
ends in `".."`, in which case it is appended; anything else is appended. -/
def _normalise_step (output : List String) (part : String) : List String :=
  if part = "" then output
  else if part = "." then output
  else if part = ".." then
    if output ≠ [] ∧ output.getLast? ≠ some ".." then output.dropLast
    else output ++ [".."]
  else output ++ [part]

/-- `_normalise_relative(parts)`: left-to-right scan with `_normalise_step`. -/
def _normalise_relative (parts : List String) : List String :=
  parts.foldl _normalise_step []

namespace GPath

/-- `GPath.__init__` from a string (the `str` branch; the `bytes` branch
decodes to a string first and the copy branch copies fields).  A drive is a
single leading character followed by `":"`; a root is a leading `"/"` or
`"\\"`; the remainder is split, normalised, and its leading `".."` count
becomes `parent_level` unless the path is rooted (in which case
`_parent_level` is never assigned and stays `0`). -/
def fromStringEnc (path : String) (encoding : Option String) : GPath :=
  if path = "" then ⟨[], false, "", 0, encoding⟩
  else
    let cs := path.toList
    let driveSplit : String × List Char :=
      match cs with
      | c0 :: c1 :: rest => if c1 = ':' then (String.mk [c0], rest) else ("", cs)
      | _ => ("", cs)
    let drive := driveSplit.1
    let driveless := driveSplit.2
    let root : Bool :=
      match driveless with
      | c :: _ => c = '/' || c = '\\'
      | [] => false
    let rootless := if root then driveless.drop 1 else driveless
    let parts0 := _normalise_relative (_split_relative rootless)
    let parentLevel := (parts0.takeWhile (fun p => p = "..")).length
    { parts := parts0.drop parentLevel,
      root := root,
      drive := drive,
      parent_level := if root then 0 else (parentLevel : Int),
      encoding := encoding }

/-- `GPath(path)` with no explicit encoding. -/
def fromString (path : String) : GPath :=
  fromStringEnc path none

/-! ### Copy-and-modify operations -/

/-- `GPath.as_relative(parent_level)`: clear `root`; overwrite
`parent_level` when an integer argument is given.  The value of the
argument is not checked. -/
def as_relative (p : GPath) (parentLevel : Option Int) : GPath :=
  match parentLevel with
  | none => { p with root := false }
  | some n => { p with root := false, parent_level := n }

/-- `GPath.as_absolute()`: set `root`, clear `parent_level`. -/
def as_absolute (p : GPath) : GPath :=
  { p with root := true, parent_level := 0 }

/-- `GPath.with_drive(drive)`: raises `ValueError` (modelled as `none`) when
the drive has more than one character; otherwise replaces the drive. -/
def with_drive (p : GPath) (drive : String) : Option GPath :=
  if drive.length > 1 then none
  else some { p with drive := drive }

/-! ### The common-base resolver `common_with` and its clients -/

/-- The `for part1, part2 in zip(...): if part1 == part2: parts.append(part1)`
loop shared by both branches of `common_with`: it collects every position-wise
matching component of the two lists, with no break at a mismatch. -/
def zipMatches : List String → List String → List String
  | x :: xs, y :: ys =>
      if x = y then x :: zipMatches xs ys else zipMatches xs ys
  | _, _ => []

/-- The post-filter at the end of `common_with`: a falsy candidate is
discarded when `allow_current` is off, unless it equals both inputs. -/
def commonFilter (allowCurrent : Bool) (self other common : GPath) :
    Option GPath :=
  if !allowCurrent ∧ !common.boolB then
    if common ≠ self ∨ common ≠ other then none else some common
  else some common

/-- `GPath.common_with(other, allow_current, allow_parents)`.  `None` when the
drives or the roots differ, or (without `allow_parents`) when the parent
levels differ, or when the candidate fails the post-filter.  The candidate is
a copy of `self` with its `parts` (and, in the `allow_parents` branch, its
`parent_level`) replaced; `allow_parents` forces `allow_current`. -/
def common_with (self other : GPath) (allowCurrent allowParents : Bool) :
    Option GPath :=
  if self.drive ≠ other.drive then none
  else if self.root ≠ other.root then none
  else
    let allowCurrent := if allowParents then true else allowCurrent
    if self.root then
      commonFilter allowCurrent self other
        { self with parts := zipMatches self.parts other.parts }
    else if self.parent_level ≠ other.parent_level then
      if !allowParents then none
      else
        commonFilter allowCurrent self other
          { self with
            parent_level := max self.parent_level other.parent_level,
            parts := [] }
    else
      commonFilter allowCurrent self other
        { self with parts := zipMatches self.parts other.parts }

/-- `common_with` with its declared default arguments
`allow_current=True, allow_parents=False` (also `__and__`). -/
def common_with_default (self other : GPath) : Option GPath :=
  common_with self other true false

/-- `GPath.__contains__`: `other in self` holds iff
`self.common_with(other, allow_current=True, allow_parents=True)` exists and
equals `self`. -/
def containsB (self other : GPath) : Bool :=
  match common_with self other true true with
  | none => false
  | some c => decide (c = self)

/-- `GPath.subpath_from(base)`: defined when
`self.common_with(base, allow_current=True, allow_parents=False)` exists and
`self in base`; the result drops the first `len(base._parts)` components of
`self._parts` and resets root, drive and parent level. -/
def subpath_from (self base : GPath) : Option GPath :=
  if (common_with self base true false).isSome ∧ containsB base self then
    some { self with
      parts := self.parts.drop base.parts.length,
      drive := "",
      root := false,
      parent_level := 0 }
  else none

/-- `GPath.relpath_from(origin)`. -/
def relpath_from (self origin : GPath) : Option GPath :=
  if origin.root then
    match common_with self origin true false with
    | none => none
    | some common =>
        some { self with
          parent_level := (origin.parts.length : Int) - common.parts.length,
          parts := self.parts.drop common.parts.length,
          drive := "",
          root := false }
  else
    match common_with self origin true true with
    | none => none
    | some common =>
        if common.parent_level > self.parent_level then none
        else if common.parts.length = 0 then
          if origin.parent_level = self.parent_level then
            some { self with
              drive := "", root := false,
              parent_level := (origin.parts.length : Int),
              parts := self.parts }
          else
            some { self with
              drive := "", root := false,
              parent_level :=
                (common.parent_level - origin.parent_level)
                  + origin.parts.length,
              parts := self.parts }
        else
          some { self with
            drive := "", root := false,
            parent_level := (origin.parts.length : Int) - common.parts.length,
            parts := self.parts.drop common.parts.length }

/-! ### Arithmetic and shift operators -/

/-- The pop loop shared by `__add__` and `__sub__`: `n` times, drop the last
named part if one remains, else increment `parent_level` if not rooted, else
do nothing (the parent of root is root).  Returns the new parts and parent
level. -/
def popParts (root : Bool) : List String → Int → Nat → List String × Int
  | parts, pl, 0 => (parts, pl)
  | parts, pl, n + 1 =>
      if parts.length > 0 then popParts root parts.dropLast pl n
      else if !root then popParts root parts (pl + 1) n
      else popParts root parts pl n

/-- `GPath.__add__` (also `__truediv__`): concatenation.  A rooted right
operand replaces parts, root and parent level wholesale; otherwise the right
operand's leading parent levels pop the left operand's trailing parts.  The
right operand's drive wins when non-empty; the left operand's encoding always
propagates (the result is a copy of `self`). -/
def add (self other : GPath) : GPath :=
  let newPath :=
    if other.root then
      { self with
        parts := other.parts,
        root := other.root,
        parent_level := other.parent_level }
    else
      let popped :=
        popParts self.root self.parts self.parent_level other.parent_level.toNat
      { self with
        parts := popped.1 ++ other.parts,
        parent_level := popped.2 }
  if other.drive ≠ "" then { newPath with drive := other.drive } else newPath

/-- `GPath.__sub__`: raises `ValueError` (modelled as `none`) for negative
`n`; otherwise applies the pop loop `n` times. -/
def sub (self : GPath) (n : Int) : Option GPath :=
  if n < 0 then none
  else
    let popped := popParts self.root self.parts self.parent_level n.toNat
    some { self with parts := popped.1, parent_level := popped.2 }

/-- `GPath.__mul__`: raises `ValueError` (modelled as `none`) for negative
`n`; otherwise multiplies the parent level and repeats the parts. -/
def mul (self : GPath) (n : Int) : Option GPath :=
  if n < 0 then none
  else some { self with
    parent_level := self.parent_level * n,
    parts := (List.replicate n.toNat self.parts).flatten }

/-- `GPath.__lshift__`: for non-negative `n`, reduce the parent level by up
to `n` (floored at zero) unless rooted; a negative `n` delegates to
`__rshift__(-n)`, whose non-negative branch is inlined here (the mutual
delegation bottoms out after one bounce). -/
def lshift (self : GPath) (n : Int) : GPath :=
  if n < 0 then
    if !self.root then { self with parent_level := self.parent_level + (-1 * n) }
    else self
  else
    if !self.root then { self with parent_level := max (self.parent_level - n) 0 }
    else self

/-- `GPath.__rshift__`: for non-negative `n`, add `n` to the parent level
unless rooted; a negative `n` delegates to `__lshift__(-n)`. -/
def rshift (self : GPath) (n : Int) : GPath :=
  if n < 0 then lshift self (-1 * n)
  else
    if !self.root then { self with parent_level := self.parent_level + n }
    else self

end GPath

/-! ### The partitioner (`GPath.partition`)

The Python `dict` (insertion-ordered; assignment to an existing key updates
it in place, assignment to a fresh key appends, `del` removes) is modelled by
an association list. -/

/-- Assignment `m[k] = v` with Python-`dict` semantics. -/
def dictSet (m : List (GPath × List GPath)) (k : GPath) (v : List GPath) :
    List (GPath × List GPath) :=
  if m.any (fun e => e.1 = k) then
    m.map (fun e => if e.1 = k then (k, v) else e)
  else m ++ [(k, v)]

/-- Deletion `del m[k]`. -/
def dictDel (m : List (GPath × List GPath)) (k : GPath) :
    List (GPath × List GPath) :=
  m.filter (fun e => e.1 ≠ k)

/-- Lookup `m[k]`, only used on present keys (absent gives `[]`). -/
def dictGet (m : List (GPath × List GPath)) (k : GPath) : List GPath :=
  match m.find? (fun e => e.1 = k) with
  | some e => e.2
  | none => []

/-- The inner `for partition in partition_map` scan of `GPath.partition`:
the first key whose `common_with` the new path is defined, together with
that common value. -/
def firstMatch (allowCurrent allowParents : Bool)
    (m : List (GPath × List GPath)) (path : GPath) : Option (GPath × GPath) :=
  match m with
  | [] => none
  | (k, _) :: rest =>
      match GPath.common_with k path allowCurrent allowParents with
      | some c => some (k, c)
      | none => firstMatch allowCurrent allowParents rest path

/-- The body of the `for path in gpaths[1:]` loop of `GPath.partition`:
on the first matching key, re-key that partition to the common value (then
append the path to its member list unless `allow_parents`); otherwise open a
new partition. -/
def partitionStep (allowCurrent allowParents : Bool)
    (m : List (GPath × List GPath)) (path : GPath) :
    List (GPath × List GPath) :=
  match firstMatch allowCurrent allowParents m path with
  | none =>
      if allowParents then m ++ [(path, [])]
      else m ++ [(path, [path])]
  | some (k, c) =>
      let m1 := if c ≠ k then dictDel (dictSet m c (dictGet m k)) k else m
      if allowParents then m1
      else dictSet m1 c (dictGet m1 c ++ [path])

/-- `GPath.partition(*paths, allow_current, allow_parents)` on an
already-constructed list of `GPath`s: seed with the first path, fold the
scan over the rest, then replace every member with its `subpath_from` the
final key of its partition. -/
def partition (allowCurrent allowParents : Bool) (gpaths : List GPath) :
    List (GPath × List (Option GPath)) :=
  match gpaths with
  | [] => []
  | g0 :: rest =>
      let seed : List (GPath × List GPath) :=
        if allowParents then [(g0, [])] else [(g0, [g0])]
      let m := rest.foldl (partitionStep allowCurrent allowParents) seed
      m.map (fun e => (e.1, e.2.map (fun p => GPath.subpath_from p e.1)))

/-- `partition` with its declared default arguments
`allow_current=True, allow_parents=True`. -/
def partitionDefault (gpaths : List GPath) :
    List (GPath × List (Option GPath)) :=
  partition true true gpaths

/-! ### The superseded revision `gpath.py`: ordering

The single-module revision stores `(_parts, _namespace, _root,
_parent_level)` (no encoding) and orders paths by `__lt__`, which compares
`_order = (root, namespace, parent_level, parts)` as Python tuples. -/

/-- The path value of the superseded `gpath.py` revision; `namespace` is its
name for the drive. -/
structure LegacyGPath where
  parts : List String
  namesp : String
  root : Bool
  parent_level : Int
deriving DecidableEq, Repr

/-- Python `str` comparison: lexicographic on code points. -/
def charListLtB : List Char → List Char → Bool
  | [], [] => false
  | [], _ :: _ => true
  | _ :: _, [] => false
  | a :: as, b :: bs =>
      if a < b then true
      else if b < a then false
      else charListLtB as bs

/-- Python `str` comparison on `String`s. -/
def strLtB (a b : String) : Bool :=
  charListLtB a.toList b.toList

/-- Python `list`/`tuple` comparison for the `_parts` component: element-wise
by the element order, with a strict prefix less than its extensions. -/
def listLtB : List String → List String → Bool
  | [], [] => false
  | [], _ :: _ => true
  | _ :: _, [] => false
  | a :: as, b :: bs =>
      if strLtB a b then true
      else if strLtB b a then false
      else listLtB as bs

/-- `GPath.__lt__` of `gpath.py`: Python tuple comparison of
`_order = (self._root, self._namespace, self._parent_level, self._parts)`,
with `False < True` for the root flag. -/
def legacyLt (x y : LegacyGPath) : Bool :=
  if x.root ≠ y.root then decide (x.root = false)
  else if strLtB x.namesp y.namesp then true
  else if strLtB y.namesp x.namesp then false
  else if x.parent_level < y.parent_level then true
  else if y.parent_level < x.parent_level then false
  else listLtB x.parts y.parts

/-- Proof-side view of the last three keys of `legacyLt` (namespace, parent
level, parts), compared lexicographically. -/
def chainLtB (a b : String × Int × List String) : Bool :=
  if strLtB a.1 b.1 then true
  else if strLtB b.1 a.1 then false
  else if a.2.1 < b.2.1 then true
  else if b.2.1 < a.2.1 then false
  else listLtB a.2.2 b.2.2

/-- The specification's own description of the common-`parts` computation in
`common_with` (§4.4): the longest position-by-position matching initial
segment, stopping at the first index where the two lists differ.  Written
from the spec's words, for comparison against `zipMatches`, which is the
code's computation. -/
def specCommonParts : List String → List String → List String
  | x :: xs, y :: ys => if x = y then x :: specCommonParts xs ys else []
  | _, _ => []

/-! ## Lemmas -/

theorem charListLtB_irrefl : ∀ as : List Char, charListLtB as as = false := by
  intro as
  induction as with
  | nil => rfl
  | cons a as ih => simp [charListLtB, lt_irrefl, ih]

theorem charListLtB_asymm :
    ∀ as bs : List Char, charListLtB as bs = true → charListLtB bs as = false := by
  intro as
  induction as with
  | nil =>
    intro bs h
    cases bs with
    | nil => simp [charListLtB] at h
    | cons b bs => simp [charListLtB]
  | cons a as ih =>
    intro bs h
    cases bs with
    | nil => simp [charListLtB] at h
    | cons b bs =>
      by_cases hab : a < b
      · have hba : ¬ b < a := lt_asymm hab
        simp [charListLtB, hab, hba]
      · by_cases hba : b < a
        · simp [charListLtB, hab, hba] at h
        · simp only [charListLtB, if_neg hab, if_neg hba] at h
          simp only [charListLtB, if_neg hab, if_neg hba]
          exact ih bs h

theorem charListLtB_eq_of_not :
    ∀ as bs : List Char,
      charListLtB as bs = false → charListLtB bs as = false → as = bs := by
  intro as
  induction as with
  | nil =>
    intro bs h _
    cases bs with
    | nil => rfl
    | cons b bs => simp [charListLtB] at h
  | cons a as ih =>
    intro bs h h2
    cases bs with
    | nil => simp [charListLtB] at h2
    | cons b bs =>
      by_cases hab : a < b
      · simp [charListLtB, hab] at h
      · by_cases hba : b < a
        · simp [charListLtB, hab, hba] at h2
        · have hab2 : a = b := le_antisymm (not_lt.mp hba) (not_lt.mp hab)
          simp only [charListLtB, if_neg hab, if_neg hba] at h
          simp only [charListLtB, if_neg hba, if_neg hab] at h2
          rw [hab2, ih bs h h2]

theorem charListLtB_trans :
    ∀ as bs cs : List Char,
      charListLtB as bs = true → charListLtB bs cs = true →
      charListLtB as cs = true := by
  intro as
  induction as with
  | nil =>
    intro bs cs h1 h2
    cases bs with
    | nil => simp [charListLtB] at h1
    | cons b bs =>
      cases cs with
      | nil => simp [charListLtB] at h2
      | cons c cs => simp [charListLtB]
  | cons a as ih =>
    intro bs cs h1 h2
    cases bs with
    | nil => simp [charListLtB] at h1
    | cons b bs =>
      cases cs with
      | nil => simp [charListLtB] at h2
      | cons c cs =>
        by_cases hab : a < b
        · by_cases hbc : b < c
          · simp [charListLtB, lt_trans hab hbc]
          · by_cases hcb : c < b
            · simp [charListLtB, hbc, hcb] at h2
            · have hbc2 : b = c := le_antisymm (not_lt.mp hcb) (not_lt.mp hbc)
              rw [hbc2] at hab
              simp [charListLtB, hab]
        · by_cases hba : b < a
          · simp [charListLtB, hab, hba] at h1
          · have hab2 : a = b := le_antisymm (not_lt.mp hba) (not_lt.mp hab)
            subst hab2
            by_cases hac : a < c
            · simp [charListLtB, hac]
            · by_cases hca : c < a
              · simp [charListLtB, hac, hca] at h2
              · simp only [charListLtB, if_neg hab, if_neg hba] at h1
                simp only [charListLtB, if_neg hac, if_neg hca] at h2 ⊢
                exact ih bs cs h1 h2

theorem string_eq_of_toList {a b : String} (h : a.toList = b.toList) : a = b := by
  cases a
  cases b
  simp only [String.toList] at h
  rw [h]

theorem strLtB_irrefl (a : String) : strLtB a a = false :=
  charListLtB_irrefl a.toList

theorem strLtB_asymm {a b : String} (h : strLtB a b = true) : strLtB b a = false :=
  charListLtB_asymm a.toList b.toList h

theorem strLtB_eq_of_not {a b : String}
    (h : strLtB a b = false) (h2 : strLtB b a = false) : a = b :=
  string_eq_of_toList (charListLtB_eq_of_not a.toList b.toList h h2)

theorem strLtB_trans {a b c : String}
    (h1 : strLtB a b = true) (h2 : strLtB b c = true) : strLtB a c = true :=
  charListLtB_trans a.toList b.toList c.toList h1 h2

theorem listLtB_irrefl : ∀ as : List String, listLtB as as = false := by
  intro as
  induction as with
  | nil => rfl
  | cons a as ih => simp [listLtB, strLtB_irrefl, ih]

theorem listLtB_asymm :
    ∀ as bs : List String, listLtB as bs = true → listLtB bs as = false := by
  intro as
  induction as with
  | nil =>
    intro bs h
    cases bs with
    | nil => simp [listLtB] at h
    | cons b bs => simp [listLtB]
  | cons a as ih =>
    intro bs h
    cases bs with
    | nil => simp [listLtB] at h
    | cons b bs =>
      by_cases hab : strLtB a b = true
      · have hba : strLtB b a = false := strLtB_asymm hab
        simp [listLtB, hab, hba]
      · by_cases hba : strLtB b a = true
        · simp [listLtB, hab, hba] at h
        · simp only [listLtB, hab, hba, Bool.false_eq_true, if_false] at h
          simp only [listLtB, hab, hba, Bool.false_eq_true, if_false]
          exact ih bs h

theorem listLtB_eq_of_not :
    ∀ as bs : List String,
      listLtB as bs = false → listLtB bs as = false → as = bs := by
  intro as
  induction as with
  | nil =>
    intro bs h _
    cases bs with
    | nil => rfl
    | cons b bs => simp [listLtB] at h
  | cons a as ih =>
    intro bs h h2
    cases bs with
    | nil => simp [listLtB] at h2
    | cons b bs =>
      by_cases hab : strLtB a b = true
      · simp [listLtB, hab] at h
      · by_cases hba : strLtB b a = true
        · simp [listLtB, hab, hba] at h2
        · have hab2 : a = b :=
            strLtB_eq_of_not (Bool.eq_false_iff.mpr hab) (Bool.eq_false_iff.mpr hba)
          simp only [listLtB, hab, hba, Bool.false_eq_true, if_false] at h
          simp only [listLtB, hba, hab, Bool.false_eq_true, if_false] at h2
          rw [hab2, ih bs h h2]

theorem listLtB_trans :
    ∀ as bs cs : List String,
      listLtB as bs = true → listLtB bs cs = true → listLtB as cs = true := by
  intro as
  induction as with
  | nil =>
    intro bs cs h1 h2
    cases bs with
    | nil => simp [listLtB] at h1
    | cons b bs =>
      cases cs with
      | nil => simp [listLtB] at h2
      | cons c cs => simp [listLtB]
  | cons a as ih =>
    intro bs cs h1 h2
    cases bs with
    | nil => simp [listLtB] at h1
    | cons b bs =>
      cases cs with
      | nil => simp [listLtB] at h2
      | cons c cs =>
        by_cases hab : strLtB a b = true
        · by_cases hbc : strLtB b c = true
          · simp [listLtB, strLtB_trans hab hbc]
          · by_cases hcb : strLtB c b = true
            · simp [listLtB, hbc, hcb] at h2
            · have hbc2 : b = c :=
                strLtB_eq_of_not (Bool.eq_false_iff.mpr hbc) (Bool.eq_false_iff.mpr hcb)
              rw [hbc2] at hab
              simp [listLtB, hab]
        · by_cases hba : strLtB b a = true
          · simp [listLtB, hab, hba] at h1
          · have hab2 : a = b :=
              strLtB_eq_of_not (Bool.eq_false_iff.mpr hab) (Bool.eq_false_iff.mpr hba)
            subst hab2
            by_cases hac : strLtB a c = true
            · simp [listLtB, hac]
            · by_cases hca : strLtB c a = true
              · simp [listLtB, hac, hca] at h2
              · simp only [listLtB, hab, hba, Bool.false_eq_true, if_false] at h1
                simp only [listLtB, hac, hca, Bool.false_eq_true, if_false] at h2 ⊢
                exact ih bs cs h1 h2

theorem chainLtB_irrefl (a : String × Int × List String) : chainLtB a a = false := by
  simp [chainLtB, strLtB_irrefl, listLtB_irrefl]

theorem chainLtB_eq_of_not {a b : String × Int × List String}
    (h : chainLtB a b = false) (h2 : chainLtB b a = false) : a = b := by
  by_cases hn : strLtB a.1 b.1 = true
  · simp [chainLtB, hn] at h
  · by_cases hn2 : strLtB b.1 a.1 = true
    · simp [chainLtB, hn2] at h2
    · have hname : a.1 = b.1 :=
        strLtB_eq_of_not (Bool.eq_false_iff.mpr hn) (Bool.eq_false_iff.mpr hn2)
      by_cases hp : a.2.1 < b.2.1
      · simp [chainLtB, hn, hp] at h
        exact absurd h hn2
      · by_cases hp2 : b.2.1 < a.2.1
        · simp [chainLtB, hn2, hp2] at h2
          exact absurd h2 hn
        · have hpl : a.2.1 = b.2.1 := by omega
          simp only [chainLtB, hn, hn2, hp, hp2, Bool.false_eq_true, if_false] at h h2
          have hparts : a.2.2 = b.2.2 := listLtB_eq_of_not _ _ h h2
          exact Prod.ext hname (Prod.ext hpl hparts)

theorem chainLtB_trans {a b c : String × Int × List String}
    (h1 : chainLtB a b = true) (h2 : chainLtB b c = true) : chainLtB a c = true := by
  by_cases hab : strLtB a.1 b.1 = true
  · by_cases hbc : strLtB b.1 c.1 = true
    · simp [chainLtB, strLtB_trans hab hbc]
    · by_cases hcb : strLtB c.1 b.1 = true
      · simp [chainLtB, hbc, hcb] at h2
      · have hbc2 : b.1 = c.1 :=
          strLtB_eq_of_not (Bool.eq_false_iff.mpr hbc) (Bool.eq_false_iff.mpr hcb)
        rw [hbc2] at hab
        simp [chainLtB, hab]
  · by_cases hba : strLtB b.1 a.1 = true
    · simp [chainLtB, hab, hba] at h1
    · have hab2 : a.1 = b.1 :=
        strLtB_eq_of_not (Bool.eq_false_iff.mpr hab) (Bool.eq_false_iff.mpr hba)
      by_cases hac : strLtB a.1 c.1 = true
      · simp [chainLtB, hac]
      · by_cases hca : strLtB c.1 a.1 = true
        · rw [hab2] at hca
          by_cases hbc : strLtB b.1 c.1 = true
          · have hcontra := strLtB_trans hbc hca
            rw [strLtB_irrefl] at hcontra
            exact absurd hcontra (by simp)
          · by_cases hcb : strLtB c.1 b.1 = true
            · simp [chainLtB, hbc, hcb] at h2
            · have hbceq : b.1 = c.1 :=
                strLtB_eq_of_not (Bool.eq_false_iff.mpr hbc) (Bool.eq_false_iff.mpr hcb)
              rw [hbceq, strLtB_irrefl] at hca
              exact absurd hca (by simp)
        · -- names all equal: compare parent levels
          have hbc : strLtB b.1 c.1 = false := by
            rw [← hab2]
            exact Bool.eq_false_iff.mpr hac
          have hcb : strLtB c.1 b.1 = false := by
            rw [← hab2]
            exact Bool.eq_false_iff.mpr hca
          simp only [chainLtB, hab, hba, Bool.false_eq_true, if_false] at h1
          simp only [chainLtB, hbc, hcb, Bool.false_eq_true, if_false] at h2
          simp only [chainLtB, hac, hca, Bool.false_eq_true, if_false]
          by_cases hp1 : a.2.1 < b.2.1
          · by_cases hp2 : b.2.1 < c.2.1
            · have hpac : a.2.1 < c.2.1 := by omega
              simp [hpac]
            · by_cases hp3 : c.2.1 < b.2.1
              · simp [hp2, hp3] at h2
              · have hpac : a.2.1 < c.2.1 := by omega
                simp [hpac]
          · by_cases hp1b : b.2.1 < a.2.1
            · simp [hp1, hp1b] at h1
            · have hpl : a.2.1 = b.2.1 := by omega
              by_cases hp2 : b.2.1 < c.2.1
              · have hpac : a.2.1 < c.2.1 := by omega
                simp [hpac]
              · by_cases hp3 : c.2.1 < b.2.1
                · simp [hp2, hp3] at h2
                · have hplc : ¬ a.2.1 < c.2.1 := by omega
                  have hplc2 : ¬ c.2.1 < a.2.1 := by omega
                  simp only [hp1, hp1b, hp2, hp3, hplc, hplc2, if_false] at h1 h2 ⊢
                  exact listLtB_trans _ _ _ h1 h2

theorem chainLtB_total (a b : String × Int × List String) :
    chainLtB a b = true ∨ chainLtB b a = true ∨ a = b := by
  by_cases h : chainLtB a b = true
  · exact Or.inl h
  · by_cases h2 : chainLtB b a = true
    · exact Or.inr (Or.inl h2)
    · exact Or.inr (Or.inr
        (chainLtB_eq_of_not (Bool.eq_false_iff.mpr h) (Bool.eq_false_iff.mpr h2)))

theorem legacyLt_eq_chain {x y : LegacyGPath} (h : x.root = y.root) :
    legacyLt x y
      = chainLtB (x.namesp, x.parent_level, x.parts)
          (y.namesp, y.parent_level, y.parts) := by
  simp [legacyLt, chainLtB, h]

theorem listLtB_of_take :
    ∀ (bs : List String) (n : Nat), bs.take n ≠ bs → listLtB (bs.take n) bs = true := by
  intro bs
  induction bs with
  | nil => intro n h; simp at h
  | cons b bs ih =>
    intro n h
    cases n with
    | zero => simp [listLtB]
    | succ k =>
      simp only [List.take_succ_cons] at h ⊢
      have htail : bs.take k ≠ bs := by
        intro he
        exact h (by rw [he])
      simp only [listLtB, strLtB_irrefl, Bool.false_eq_true, if_false]
      exact ih k htail

theorem legacyLt_irrefl (x : LegacyGPath) : legacyLt x x = false := by
  rw [legacyLt_eq_chain rfl]
  exact chainLtB_irrefl _

theorem legacyLt_trans (x y z : LegacyGPath)
    (h1 : legacyLt x y = true) (h2 : legacyLt y z = true) :
    legacyLt x z = true := by
  cases hxr : x.root <;> cases hyr : y.root <;> cases hzr : z.root
  · rw [legacyLt_eq_chain (hxr.trans hyr.symm)] at h1
    rw [legacyLt_eq_chain (hyr.trans hzr.symm)] at h2
    rw [legacyLt_eq_chain (hxr.trans hzr.symm)]
    exact chainLtB_trans h1 h2
  · simp [legacyLt, hxr, hzr]
  · simp [legacyLt, hyr, hzr] at h2
  · simp [legacyLt, hxr, hzr]
  · simp [legacyLt, hxr, hyr] at h1
  · simp [legacyLt, hxr, hyr] at h1
  · simp [legacyLt, hyr, hzr] at h2
  · rw [legacyLt_eq_chain (hxr.trans hyr.symm)] at h1
    rw [legacyLt_eq_chain (hyr.trans hzr.symm)] at h2
    rw [legacyLt_eq_chain (hxr.trans hzr.symm)]
    exact chainLtB_trans h1 h2

theorem legacyLt_total (x y : LegacyGPath) :
    legacyLt x y = true ∨ legacyLt y x = true ∨ x = y := by
  cases hxr : x.root <;> cases hyr : y.root
  case false.true =>
    left
    simp [legacyLt, hxr, hyr]
  case true.false =>
    right; left
    simp [legacyLt, hxr, hyr]
  all_goals
    rcases chainLtB_total (x.namesp, x.parent_level, x.parts)
        (y.namesp, y.parent_level, y.parts) with h | h | h
    · left
      rw [legacyLt_eq_chain (hxr.trans hyr.symm)]
      exact h
    · right; left
      rw [legacyLt_eq_chain (hyr.trans hxr.symm)]
      exact h
    · right; right
      simp only [Prod.mk.injEq] at h
      obtain ⟨hn, hp, hl⟩ := h
      cases x; cases y
      simp_all

/-! ### Lemmas about `zipMatches`, `popParts` and `common_with` -/

theorem zipMatches_length_le_left :
    ∀ xs ys : List String, (GPath.zipMatches xs ys).length ≤ xs.length := by
  intro xs
  induction xs with
  | nil => intro ys; cases ys <;> simp [GPath.zipMatches]
  | cons x xs ih =>
    intro ys
    cases ys with
    | nil => simp [GPath.zipMatches]
    | cons y ys =>
      by_cases h : x = y
      · simpa [GPath.zipMatches, h] using ih ys
      · simp only [GPath.zipMatches, if_neg h]
        exact le_trans (ih ys) (by simp)

theorem zipMatches_length_le_right :
    ∀ xs ys : List String, (GPath.zipMatches xs ys).length ≤ ys.length := by
  intro xs
  induction xs with
  | nil => intro ys; cases ys <;> simp [GPath.zipMatches]
  | cons x xs ih =>
    intro ys
    cases ys with
    | nil => simp [GPath.zipMatches]
    | cons y ys =>
      by_cases h : x = y
      · simpa [GPath.zipMatches, h] using ih ys
      · simp only [GPath.zipMatches, if_neg h]
        exact le_trans (ih ys) (by simp)

/-- When the position-wise match returns the whole left list, the left list
is an initial segment of the right list. -/
theorem zipMatches_eq_append :
    ∀ xs ys : List String, GPath.zipMatches xs ys = xs →
      xs ++ ys.drop xs.length = ys := by
  intro xs
  induction xs with
  | nil => intro ys _; simp
  | cons x xs ih =>
    intro ys h
    cases ys with
    | nil => simp [GPath.zipMatches] at h
    | cons y ys =>
      by_cases hxy : x = y
      · simp only [GPath.zipMatches, if_pos hxy, List.cons.injEq] at h
        have := ih ys h.2
        simp only [List.length_cons, List.drop_succ_cons, List.cons_append, hxy]
        rw [this]
      · simp only [GPath.zipMatches, if_neg hxy] at h
        have hlen := zipMatches_length_le_left xs ys
        rw [h] at hlen
        simp at hlen

theorem popParts_parent_ge :
    ∀ (root : Bool) (n : Nat) (parts : List String) (pl : Int),
      pl ≤ (GPath.popParts root parts pl n).2 := by
  intro root n
  induction n with
  | zero => intro parts pl; simp [GPath.popParts]
  | succ k ih =>
    intro parts pl
    by_cases h : parts.length > 0
    · simp only [GPath.popParts, if_pos h]
      exact ih parts.dropLast pl
    · cases hr : root
      · rw [hr] at ih
        simp only [GPath.popParts, if_neg h, Bool.not_false, if_true]
        exact le_trans (by omega) (ih parts (pl + 1))
      · rw [hr] at ih
        simp only [GPath.popParts, if_neg h, Bool.not_true, Bool.false_eq_true, if_false]
        exact ih parts pl

theorem popParts_root :
    ∀ (n : Nat) (parts : List String) (pl : Int),
      (GPath.popParts true parts pl n).2 = pl := by
  intro n
  induction n with
  | zero => intro parts pl; simp [GPath.popParts]
  | succ k ih =>
    intro parts pl
    by_cases h : parts.length > 0
    · simp only [GPath.popParts, if_pos h]
      exact ih parts.dropLast pl
    · simp only [GPath.popParts, if_neg h]
      simpa using ih parts pl

/-- The post-filter never alters the candidate: a defined result is the
candidate itself. -/
theorem commonFilter_some {ac : Bool} {s o c d : GPath}
    (h : GPath.commonFilter ac s o c = some d) : d = c := by
  unfold GPath.commonFilter at h
  split at h
  · split at h
    · exact absurd h (by simp)
    · simpa using h.symm
  · simpa using h.symm

/-- With `allow_current` on, the post-filter is the identity. -/
theorem commonFilter_current (s o c : GPath) :
    GPath.commonFilter true s o c = some c := by
  simp [GPath.commonFilter]

/-- Structure of any defined result of `common_with`: the drives and the
roots of the two inputs agree, the result is a field-modified copy of the
left input, and the modification is either the position-wise component match
(keeping the parent level, which then agrees with the right input's whenever
the paths are not rooted) or, in the `allow_parents` branch, the maximum
parent level with no parts. -/
theorem common_with_some {a b : GPath} {ac ap : Bool} {c : GPath}
    (h : GPath.common_with a b ac ap = some c) :
    a.drive = b.drive ∧ a.root = b.root ∧
      ((c = { a with parts := GPath.zipMatches a.parts b.parts } ∧
          (a.root = false → a.parent_level = b.parent_level)) ∨
        (a.root = false ∧ a.parent_level ≠ b.parent_level ∧ ap = true ∧
          c = { a with
                parent_level := max a.parent_level b.parent_level,
                parts := [] })) := by
  unfold GPath.common_with at h
  by_cases hd : a.drive = b.drive
  · rw [if_neg (by simpa using hd)] at h
    by_cases hr : a.root = b.root
    · rw [if_neg (by simpa using hr)] at h
      refine ⟨hd, hr, ?_⟩
      by_cases hroot : a.root = true
      · rw [if_pos hroot] at h
        exact Or.inl ⟨commonFilter_some h, fun hrf => absurd (hroot.symm.trans hrf) (by simp)⟩
      · have hroot2 : a.root = false := Bool.eq_false_iff.mpr hroot
        rw [if_neg (by simp [hroot2])] at h
        by_cases hpl : a.parent_level = b.parent_level
        · rw [if_neg (by simpa using hpl)] at h
          exact Or.inl ⟨commonFilter_some h, fun _ => hpl⟩
        · rw [if_pos (by simpa using hpl)] at h
          cases hap : ap
          · rw [hap] at h
            simp only [Bool.not_false, Bool.true_eq_false, if_true] at h
            exact absurd h (by simp)
          · rw [hap] at h
            simp only [Bool.not_true, Bool.false_eq_true, if_false] at h
            exact Or.inr ⟨hroot2, hpl, rfl, commonFilter_some h⟩
    · rw [if_pos (by simpa using hr)] at h
      exact absurd h (by simp)
  · rw [if_pos (by simpa using hd)] at h
    exact absurd h (by simp)

/-! ### Lemmas about the normaliser -/

/-- Invariant of the `_normalise_relative` output list: all parent
indicators form an initial block, and everything after them is a named part
(not `".."`, `""` or `"."`). -/
theorem normalise_step_inv {out : List String} {part : String}
    (h : ∃ k rest, out = List.replicate k ".." ++ rest ∧
      ∀ x ∈ rest, x ≠ ".." ∧ x ≠ "" ∧ x ≠ ".") :
    ∃ k rest, _normalise_step out part = List.replicate k ".." ++ rest ∧
      ∀ x ∈ rest, x ≠ ".." ∧ x ≠ "" ∧ x ≠ "." := by
  obtain ⟨k, rest, hout, hrest⟩ := h
  by_cases h0 : part = ""
  · exact ⟨k, rest, by simpa [_normalise_step, h0] using hout, hrest⟩
  · by_cases h1 : part = "."
    · exact ⟨k, rest, by simpa [_normalise_step, h1, h0] using hout, hrest⟩
    · by_cases h2 : part = ".."
      · by_cases h3 : out ≠ [] ∧ out.getLast? ≠ some ".."
        · -- cancel the last named part
          have hrestne : rest ≠ [] := by
            intro hre
            rw [hre, List.append_nil] at hout
            rcases Nat.eq_zero_or_pos k with hk | hk
            · rw [hk] at hout
              exact h3.1 (by simpa using hout)
            · obtain ⟨k2, rfl⟩ : ∃ k2, k = k2 + 1 := ⟨k - 1, by omega⟩
              apply h3.2
              rw [hout]
              simp [List.getLast?_replicate]
          refine ⟨k, rest.dropLast, ?_, ?_⟩
          · rw [_normalise_step, if_neg h0, if_neg h1, if_pos h2, if_pos h3, hout]
            rw [List.dropLast_append_of_ne_nil _ hrestne]
          · intro x hx
            exact hrest x (List.dropLast_subset _ hx)
        · -- append a parent indicator
          have hstep : _normalise_step out part = out ++ [".."] := by
            rw [_normalise_step, if_neg h0, if_neg h1, if_pos h2, if_neg h3]
          rcases Decidable.not_and_iff_or_not.mp h3 with h4 | h4
          · have hnil : out = [] := by
              by_contra hc
              exact h4 hc
            refine ⟨1, [], ?_, by simp⟩
            rw [hstep, hnil]
            simp
          · have hlast : out.getLast? = some ".." := by
              by_contra hc
              exact h4 hc
            have hrestnil : rest = [] := by
              cases hre : rest with
              | nil => rfl
              | cons r rs =>
                exfalso
                rw [hre] at hout hrest
                rw [hout, List.getLast?_append_of_ne_nil _ (by simp)] at hlast
                have := (hrest (List.getLast (r :: rs) (by simp))
                  (List.getLast_mem _)).1
                rw [List.getLast?_eq_getLast _ (by simp)] at hlast
                exact this (by simpa using hlast)
            refine ⟨k + 1, [], ?_, by simp⟩
            rw [hstep, hout, hrestnil]
            simp [List.replicate_succ']
      · -- append a named part
        refine ⟨k, rest ++ [part], ?_, ?_⟩
        · rw [_normalise_step, if_neg h0, if_neg h1, if_neg h2, hout,
            List.append_assoc]
        · intro x hx
          rcases List.mem_append.mp hx with hx | hx
          · exact hrest x hx
          · have hxp : x = part := by simpa using hx
            exact ⟨by rwa [hxp], by rwa [hxp], by rwa [hxp]⟩

/-- The full `_normalise_relative` output satisfies the block invariant. -/
theorem normalise_inv (parts : List String) :
    ∃ k rest, _normalise_relative parts = List.replicate k ".." ++ rest ∧
      ∀ x ∈ rest, x ≠ ".." ∧ x ≠ "" ∧ x ≠ "." := by
  suffices hgen : ∀ (ps : List String) (out : List String),
      (∃ k rest, out = List.replicate k ".." ++ rest ∧
        ∀ x ∈ rest, x ≠ ".." ∧ x ≠ "" ∧ x ≠ ".") →
      ∃ k rest, List.foldl _normalise_step out ps = List.replicate k ".." ++ rest ∧
        ∀ x ∈ rest, x ≠ ".." ∧ x ≠ "" ∧ x ≠ "." by
    exact hgen parts [] ⟨0, [], by simp, by simp⟩
  intro ps
  induction ps with
  | nil => intro out h; simpa using h
  | cons p ps ih =>
    intro out h
    exact ih _ (normalise_step_inv h)

/-- `takeWhile` of the parent-indicator predicate over a parent block
followed by named parts is exactly the parent block. -/
theorem takeWhile_parent_block :
    ∀ (k : Nat) (rest : List String), (∀ x ∈ rest, x ≠ "..") →
      (List.replicate k ".." ++ rest).takeWhile (fun p => p = "..") =
        List.replicate k ".." := by
  intro k
  induction k with
  | zero =>
    intro rest hrest
    cases rest with
    | nil => simp
    | cons r rs =>
      have : r ≠ ".." := (hrest r (by simp))
      simp [List.takeWhile, this]
  | succ k2 ih =>
    intro rest hrest
    rw [List.replicate_succ]
    simp only [List.cons_append, List.takeWhile_cons]
    rw [if_pos (by simp)]
    rw [ih rest hrest]

/-- A rooted constructed path never has a parent level: the constructor only
assigns `_parent_level` when `_root` is false. -/
theorem fromStringEnc_root_parent (s : String) (enc : Option String) :
    (GPath.fromStringEnc s enc).root = true →
      (GPath.fromStringEnc s enc).parent_level = 0 := by
  by_cases hs : s = ""
  · simp [GPath.fromStringEnc, hs]
  · intro h
    simp only [GPath.fromStringEnc, if_neg hs] at h ⊢
    rw [h]
    simp

/-- No component of a constructed path's `parts` is a parent indicator, an
empty string, or a current-directory indicator. -/
theorem fromStringEnc_parts_clean (s : String) (enc : Option String)
    (x : String) (hx : x ∈ (GPath.fromStringEnc s enc).parts) :
    x ≠ ".." ∧ x ≠ "" ∧ x ≠ "." := by
  by_cases hs : s = ""
  · simp [GPath.fromStringEnc, hs] at hx
  · simp only [GPath.fromStringEnc, if_neg hs] at hx
    obtain ⟨k, rest, heq, hrest⟩ := normalise_inv
      (_split_relative
        (if (match
              (match s.toList with
                | c0 :: c1 :: rest2 =>
                    if c1 = ':' then (String.mk [c0], rest2) else ("", s.toList)
                | _ => ("", s.toList)).2 with
            | c :: _ => c = '/' || c = '\\'
            | [] => false) = true then
          (match s.toList with
            | c0 :: c1 :: rest2 =>
                if c1 = ':' then (String.mk [c0], rest2) else ("", s.toList)
            | _ => ("", s.toList)).2.drop 1
        else
          (match s.toList with
            | c0 :: c1 :: rest2 =>
                if c1 = ':' then (String.mk [c0], rest2) else ("", s.toList)
            | _ => ("", s.toList)).2))
    have hdrop : (List.replicate k ".." ++ rest).drop k = rest := by
      have hd := List.drop_left (List.replicate k "..") rest
      rwa [List.length_replicate] at hd
    rw [heq, takeWhile_parent_block k rest (fun y hy => (hrest y hy).1),
      List.length_replicate, hdrop] at hx
    exact hrest x hx

/-! ### Validity preservation -/

theorem fromStringEnc_valid (s : String) (enc : Option String) :
    (GPath.fromStringEnc s enc).Valid := by
  constructor
  · by_cases hs : s = ""
    · simp [GPath.fromStringEnc, hs]
    · simp only [GPath.fromStringEnc, if_neg hs]
      split
      · omega
      · exact Int.ofNat_nonneg _
  · exact fromStringEnc_root_parent s enc

theorem as_absolute_valid (p : GPath) : (GPath.as_absolute p).Valid := by
  exact ⟨le_refl 0, fun _ => rfl⟩

theorem as_relative_valid_none {p : GPath} (hp : p.Valid) :
    (GPath.as_relative p none).Valid := by
  exact ⟨hp.1, by simp [GPath.as_relative]⟩

theorem as_relative_valid_some {p : GPath} {n : Int} (hn : 0 ≤ n) :
    (GPath.as_relative p (some n)).Valid := by
  exact ⟨hn, by simp [GPath.as_relative]⟩

theorem with_drive_valid {p q : GPath} {d : String} (hp : p.Valid)
    (h : GPath.with_drive p d = some q) : q.Valid := by
  unfold GPath.with_drive at h
  split at h
  · exact absurd h (by simp)
  · obtain rfl : q = { p with drive := d } := by simpa using h.symm
    exact ⟨hp.1, hp.2⟩

theorem common_with_valid {a b : GPath} {ac ap : Bool} {c : GPath}
    (ha : a.Valid) (h : GPath.common_with a b ac ap = some c) : c.Valid := by
  rcases (common_with_some h).2.2 with ⟨rfl, _⟩ | ⟨hroot, _, _, rfl⟩
  · exact ⟨ha.1, ha.2⟩
  · refine ⟨le_trans ha.1 (le_max_left _ _), ?_⟩
    intro hc
    exact absurd (hroot.symm.trans hc) (by simp)

theorem subpath_from_valid {a b c : GPath}
    (h : GPath.subpath_from a b = some c) : c.Valid := by
  unfold GPath.subpath_from at h
  split at h
  · obtain rfl : c = { a with
        parts := a.parts.drop b.parts.length,
        drive := "", root := false, parent_level := 0 } := by
      simpa using h.symm
    exact ⟨le_refl 0, by simp⟩
  · exact absurd h (by simp)

theorem add_valid {a b : GPath} (ha : a.Valid) (hb : b.Valid) :
    (GPath.add a b).Valid := by
  unfold GPath.add
  cases hbr : b.root
  · simp only [Bool.false_eq_true, if_false]
    have hpop1 : a.parent_level ≤
        (GPath.popParts a.root a.parts a.parent_level b.parent_level.toNat).2 :=
      popParts_parent_ge a.root b.parent_level.toNat a.parts a.parent_level
    have hpop2 : a.root = true →
        (GPath.popParts a.root a.parts a.parent_level b.parent_level.toNat).2
          = a.parent_level := by
      intro har
      rw [har]
      exact popParts_root b.parent_level.toNat a.parts a.parent_level
    split
    · exact ⟨le_trans ha.1 hpop1, fun har => (hpop2 har).trans (ha.2 har)⟩
    · exact ⟨le_trans ha.1 hpop1, fun har => (hpop2 har).trans (ha.2 har)⟩
  · simp only [if_true]
    split
    · exact ⟨hb.1, fun _ => hb.2 hbr⟩
    · exact ⟨hb.1, fun _ => hb.2 hbr⟩

theorem sub_valid {a c : GPath} {n : Int} (ha : a.Valid)
    (h : GPath.sub a n = some c) : c.Valid := by
  unfold GPath.sub at h
  split at h
  · exact absurd h (by simp)
  · obtain rfl : c = { a with
        parts := (GPath.popParts a.root a.parts a.parent_level n.toNat).1,
        parent_level := (GPath.popParts a.root a.parts a.parent_level n.toNat).2 } := by
      simpa using h.symm
    refine ⟨le_trans ha.1 (popParts_parent_ge _ _ _ _), ?_⟩
    intro har
    have har2 : a.root = true := har
    show (GPath.popParts a.root a.parts a.parent_level n.toNat).2 = 0
    rw [har2, popParts_root]
    exact ha.2 har2

theorem mul_valid {a c : GPath} {n : Int} (ha : a.Valid)
    (h : GPath.mul a n = some c) : c.Valid := by
  unfold GPath.mul at h
  split at h
  · exact absurd h (by simp)
  · next hn =>
    obtain rfl : c = { a with
        parent_level := a.parent_level * n,
        parts := (List.replicate n.toNat a.parts).flatten } := by
      simpa using h.symm
    refine ⟨mul_nonneg ha.1 (by omega), ?_⟩
    intro har
    show a.parent_level * n = 0
    rw [ha.2 har]
    ring

theorem lshift_valid {a : GPath} {n : Int} (ha : a.Valid) :
    (GPath.lshift a n).Valid := by
  unfold GPath.lshift
  split
  · next hn =>
    split
    · next hroot =>
      refine ⟨?_, ?_⟩
      · show 0 ≤ a.parent_level + (-1 * n)
        have := ha.1
        omega
      · intro har
        have har2 : a.root = true := har
        rw [har2] at hroot
        simp at hroot
    · exact ha
  · split
    · next hroot =>
      refine ⟨?_, ?_⟩
      · show 0 ≤ max (a.parent_level - n) 0
        exact le_max_right _ _
      · intro har
        have har2 : a.root = true := har
        rw [har2] at hroot
        simp at hroot
    · exact ha

theorem rshift_valid {a : GPath} {n : Int} (ha : a.Valid) :
    (GPath.rshift a n).Valid := by
  unfold GPath.rshift
  split
  · exact lshift_valid ha
  · next hn =>
    split
    · next hroot =>
      refine ⟨?_, ?_⟩
      · show 0 ≤ a.parent_level + n
        have := ha.1
        omega
      · intro har
        have har2 : a.root = true := har
        rw [har2] at hroot
        simp at hroot
    · exact ha

theorem relpath_from_valid {a o r : GPath} (ha : a.Valid) (ho : o.Valid)
    (h : GPath.relpath_from a o = some r) : r.Valid := by
  unfold GPath.relpath_from at h
  split at h
  · -- rooted origin
    next hor =>
    cases hc : GPath.common_with a o true false with
    | none => rw [hc] at h; exact absurd h (by simp)
    | some common =>
      rw [hc] at h
      obtain rfl : r = { a with
          parent_level := (o.parts.length : Int) - common.parts.length,
          parts := a.parts.drop common.parts.length,
          drive := "", root := false } := by
        simpa using h.symm
      refine ⟨?_, by simp⟩
      rcases (common_with_some hc).2.2 with ⟨rfl, _⟩ | ⟨hroot, _, _, _⟩
      · have := zipMatches_length_le_right a.parts o.parts
        simp only
        omega
      · rw [(common_with_some hc).2.1] at hroot
        rw [hor] at hroot
        simp at hroot
  · -- relative origin
    next hor =>
    have hof : o.root = false := Bool.eq_false_iff.mpr hor
    cases hc : GPath.common_with a o true true with
    | none => rw [hc] at h; exact absurd h (by simp)
    | some common =>
      rw [hc] at h
      by_cases hguard : common.parent_level > a.parent_level
      · simp [hguard] at h
      · by_cases hlen : common.parts.length = 0
        · by_cases hple : o.parent_level = a.parent_level
          · obtain rfl : r = { a with
                drive := "", root := false,
                parent_level := (o.parts.length : Int),
                parts := a.parts } := by
              simpa [hguard, hlen, hple] using h.symm
            exact ⟨Int.ofNat_nonneg _, by simp⟩
          · obtain rfl : r = { a with
                drive := "", root := false,
                parent_level :=
                  (common.parent_level - o.parent_level) + o.parts.length,
                parts := a.parts } := by
              simpa [hguard, hlen, hple] using h.symm
            refine ⟨?_, by simp⟩
            show 0 ≤ (common.parent_level - o.parent_level) + (o.parts.length : Int)
            rcases (common_with_some hc).2.2 with ⟨rfl, heq⟩ | ⟨_, _, _, rfl⟩
            · have haro : a.root = o.root := (common_with_some hc).2.1
              have heq2 := heq (haro.trans hof)
              show 0 ≤ (a.parent_level - o.parent_level) + (o.parts.length : Int)
              omega
            · show 0 ≤
                (max a.parent_level o.parent_level - o.parent_level)
                  + (o.parts.length : Int)
              have := le_max_right a.parent_level o.parent_level
              omega
        · obtain rfl : r = { a with
              drive := "", root := false,
              parent_level := (o.parts.length : Int) - common.parts.length,
              parts := a.parts.drop common.parts.length } := by
            simpa [hguard, hlen] using h.symm
          refine ⟨?_, by simp⟩
          show 0 ≤ (o.parts.length : Int) - common.parts.length
          rcases (common_with_some hc).2.2 with ⟨rfl, _⟩ | ⟨_, _, _, rfl⟩
          · have := zipMatches_length_le_right a.parts o.parts
            show 0 ≤ (o.parts.length : Int)
              - ((GPath.zipMatches a.parts o.parts).length : Int)
            omega
          · simp at hlen

/-! ### Lemmas about the partitioner with `allow_parents` -/

theorem dictGet_allnil {m : List (GPath × List GPath)}
    (h : ∀ e ∈ m, e.2 = []) (k : GPath) : dictGet m k = [] := by
  unfold dictGet
  cases hf : m.find? (fun e => e.1 = k) with
  | none => rfl
  | some e => exact h e (List.mem_of_find?_eq_some hf)

theorem dictSet_allnil {m : List (GPath × List GPath)}
    (h : ∀ e ∈ m, e.2 = []) (k : GPath) :
    ∀ e ∈ dictSet m k [], e.2 = [] := by
  unfold dictSet
  split
  · intro e he
    obtain ⟨e0, he0, heq⟩ := List.mem_map.mp he
    by_cases hk : e0.1 = k
    · rw [if_pos hk] at heq
      rw [← heq]
    · rw [if_neg hk] at heq
      rw [← heq]
      exact h e0 he0
  · intro e he
    rcases List.mem_append.mp he with he | he
    · exact h e he
    · have : e = (k, []) := by simpa using he
      rw [this]

theorem dictDel_allnil {m : List (GPath × List GPath)}
    (h : ∀ e ∈ m, e.2 = []) (k : GPath) :
    ∀ e ∈ dictDel m k, e.2 = [] :=
  fun e he => h e (List.mem_of_mem_filter he)

theorem partitionStep_allnil (ac : Bool) {m : List (GPath × List GPath)}
    (h : ∀ e ∈ m, e.2 = []) (p : GPath) :
    ∀ e ∈ partitionStep ac true m p, e.2 = [] := by
  unfold partitionStep
  cases hf : firstMatch ac true m p with
  | none =>
    simp only [if_true]
    intro e he
    rcases List.mem_append.mp he with he | he
    · exact h e he
    · have : e = (p, []) := by simpa using he
      rw [this]
  | some kc =>
    obtain ⟨k, c⟩ := kc
    simp only [if_true]
    by_cases hck : c ≠ k
    · rw [if_pos hck, dictGet_allnil h]
      exact dictDel_allnil (dictSet_allnil h c) k
    · rw [if_neg hck]
      exact h

theorem foldl_partitionStep_allnil (ac : Bool) :
    ∀ (ps : List GPath) (m : List (GPath × List GPath)),
      (∀ e ∈ m, e.2 = []) →
      ∀ e ∈ List.foldl (partitionStep ac true) m ps, e.2 = [] := by
  intro ps
  induction ps with
  | nil => intro m h; simpa using h
  | cons p ps ih =>
    intro m h
    exact ih _ (partitionStep_allnil ac h p)

/-! ## Theorems settling the claims -/

/-- C1 (amended): for two rooted valid paths with equal drives, and likewise
for two non-rooted valid paths with equal drives and equal parent levels,
`common_with` with default options returns a copy of the left path whose
`parts` are the position-wise matches of the two part lists (`zipMatches`),
which does not stop at the first mismatching index: a later coincidentally
equal component is still collected. -/
theorem common_with_is_positionwise_match (A B : GPath)
    (hA : A.Valid) (hB : B.Valid)
    (hdrive : A.drive = B.drive) (hroot : A.root = B.root)
    (hpl : A.root = false → A.parent_level = B.parent_level) :
    GPath.common_with_default A B
      = some { A with parts := GPath.zipMatches A.parts B.parts } := by
  unfold GPath.common_with_default GPath.common_with
  rw [if_neg (by simpa using hdrive), if_neg (by simpa using hroot)]
  cases har : A.root
  · have hpleq : A.parent_level = B.parent_level := hpl har
    simp [hpleq, commonFilter_current]
  · simp [commonFilter_current]

/-- C1 counterexample: on `/a/x` and `/b/x` the code returns a common path
with parts `["x"]`, collecting the coincidental match at index 1 past the
mismatch at index 0, whereas the longest common prefix in the claim's sense
is empty. -/
theorem common_with_counterexample :
    GPath.common_with_default (GPath.fromString "/a/x") (GPath.fromString "/b/x")
      = some ⟨["x"], true, "", 0, none⟩ ∧
    specCommonParts (GPath.fromString "/a/x").parts
      (GPath.fromString "/b/x").parts = [] := by
  exact ⟨by decide, by decide⟩

/-- C1 witness: instantiation at `/usr/bin` and `/usr/local/bin`. -/
theorem common_with_is_positionwise_match_witness :
    GPath.common_with_default (GPath.fromString "/usr/bin")
        (GPath.fromString "/usr/local/bin")
      = some { GPath.fromString "/usr/bin" with
          parts := GPath.zipMatches (GPath.fromString "/usr/bin").parts
            (GPath.fromString "/usr/local/bin").parts } :=
  common_with_is_positionwise_match
    (GPath.fromString "/usr/bin") (GPath.fromString "/usr/local/bin")
    (by decide) (by decide) (by decide) (by decide) (by decide)

/-- C2 (amended): `__eq__` compares the full `_tuple`, which includes the
text encoding recorded at construction, and that tuple determines the path
value completely — so equality is exactly value equality on all five fields,
and `__hash__`, computed from the same `_tuple`, is compatible with it;
equal four-field tuples with different encodings are NOT equal. -/
theorem eq_hash_full_tuple :
    (∀ a b : GPath, GPath.eqB a b = true ↔ a = b) ∧
    (∀ a b : GPath, a._tuple = b._tuple → a = b) := by
  have htup : ∀ a b : GPath, a._tuple = b._tuple → a = b := by
    intro a b h
    cases a
    cases b
    simp only [GPath._tuple, Prod.mk.injEq] at h
    obtain ⟨h1, h2, h3, h4, h5⟩ := h
    simp_all
  constructor
  · intro a b
    constructor
    · intro h
      exact htup a b (of_decide_eq_true h)
    · intro h
      rw [h]
      simp [GPath.eqB]
  · exact htup

/-- C2 counterexample: the same text parsed with two different encodings
gives equal `(root, drive, parent_level, parts)` four-tuples but unequal
paths under `__eq__`. -/
theorem eq_encoding_counterexample :
    GPath.semTuple (GPath.fromString "a")
      = GPath.semTuple (GPath.fromStringEnc "a" (some "ascii")) ∧
    GPath.eqB (GPath.fromString "a") (GPath.fromStringEnc "a" (some "ascii"))
      = false := by
  exact ⟨by decide, by decide⟩

/-- C2 witness: a reflexive instantiation. -/
theorem eq_hash_full_tuple_witness :
    GPath.eqB (GPath.fromString "a") (GPath.fromString "a") = true :=
  (eq_hash_full_tuple.1 (GPath.fromString "a") (GPath.fromString "a")).mpr rfl

/-- C3 (amended): concatenating a rooted right operand yields a rooted path
with the right operand's parts and parent level, whose drive is the right
operand's when non-empty but FALLS BACK TO THE LEFT OPERAND'S drive when the
right operand's drive is empty; the left operand's encoding propagates. -/
theorem add_rooted_right (A B : GPath) (hroot : B.root = true) :
    (GPath.add A B).parts = B.parts ∧
    (GPath.add A B).root = true ∧
    (GPath.add A B).parent_level = B.parent_level ∧
    (B.drive ≠ "" → (GPath.add A B).drive = B.drive) ∧
    (B.drive = "" → (GPath.add A B).drive = A.drive) ∧
    (GPath.add A B).encoding = A.encoding := by
  by_cases hd : B.drive = "" <;>
    simp [GPath.add, hroot, hd]

/-- C3 counterexample: a rooted, driveless right operand does inherit the
left operand's drive (the claim said the result's drive would be empty). -/
theorem add_rooted_drive_counterexample :
    (GPath.fromString "/b").root = true ∧
    (GPath.fromString "/b").drive = "" ∧
    (GPath.add (GPath.fromString "C:/w") (GPath.fromString "/b")).drive
      = "C" := by
  exact ⟨by decide, by decide, by decide⟩

/-- C3 witness: instantiation at `C:/w + /b`. -/
theorem add_rooted_right_witness :
    (GPath.add (GPath.fromString "C:/w") (GPath.fromString "/b")).parts
        = (GPath.fromString "/b").parts ∧
    (GPath.add (GPath.fromString "C:/w") (GPath.fromString "/b")).root = true ∧
    (GPath.add (GPath.fromString "C:/w") (GPath.fromString "/b")).parent_level
        = (GPath.fromString "/b").parent_level ∧
    ((GPath.fromString "/b").drive ≠ "" →
      (GPath.add (GPath.fromString "C:/w") (GPath.fromString "/b")).drive
        = (GPath.fromString "/b").drive) ∧
    ((GPath.fromString "/b").drive = "" →
      (GPath.add (GPath.fromString "C:/w") (GPath.fromString "/b")).drive
        = (GPath.fromString "C:/w").drive) ∧
    (GPath.add (GPath.fromString "C:/w") (GPath.fromString "/b")).encoding
        = (GPath.fromString "C:/w").encoding :=
  add_rooted_right (GPath.fromString "C:/w") (GPath.fromString "/b") (by decide)

/-- C4: for a rooted valid origin, whenever `common_with` with default
options yields `common`, `relpath_from` returns a non-rooted, driveless path
with `parent_level = len(origin.parts) - len(common.parts)` and `parts` equal
to `self.parts` with its first `len(common.parts)` elements dropped. -/
theorem relpath_from_rooted_origin (self origin common : GPath)
    (hs : self.Valid) (ho : origin.Valid) (hroot : origin.root = true)
    (hc : GPath.common_with_default self origin = some common) :
    GPath.relpath_from self origin
      = some ⟨self.parts.drop common.parts.length, false, "",
          (origin.parts.length : Int) - common.parts.length, self.encoding⟩ := by
  have hc2 : GPath.common_with self origin true false = some common := hc
  unfold GPath.relpath_from
  rw [if_pos hroot, hc2]

/-- C4 witness: the claim's own scenario,
`relpath_from("/usr/bin", "/usr/local/bin") == "../../bin"`. -/
theorem relpath_from_rooted_origin_witness :
    (GPath.fromString "/usr/local/bin").root = true ∧
    GPath.common_with_default (GPath.fromString "/usr/bin")
        (GPath.fromString "/usr/local/bin") = some (GPath.fromString "/usr") ∧
    GPath.relpath_from (GPath.fromString "/usr/bin")
        (GPath.fromString "/usr/local/bin")
      = some (GPath.fromString "../../bin") := by
  refine ⟨by decide, by decide, ?_⟩
  have h := relpath_from_rooted_origin (GPath.fromString "/usr/bin")
    (GPath.fromString "/usr/local/bin") (GPath.fromString "/usr")
    (by decide) (by decide) (by decide) (by decide)
  exact h.trans (by decide)

/-- C5 (amended): whenever `B.subpath_from(A)` is defined,
`Concatenate(A, B.subpath_from(A))` agrees with `B` on all four semantic
fields `(root, drive, parent_level, parts)`, and equals `B` outright
whenever `A` and `B` carry the same encoding metadata (the concatenation
propagates the left operand's encoding, so paths differing only in encoding
break exact equality). -/
theorem subpath_concat_round_trip (A B s : GPath) (hA : A.Valid) (hB : B.Valid)
    (h : GPath.subpath_from B A = some s) :
    GPath.semTuple (GPath.add A s) = GPath.semTuple B ∧
    (A.encoding = B.encoding → GPath.add A s = B) := by
  unfold GPath.subpath_from at h
  split at h
  case isFalse => exact absurd h (by simp)
  case isTrue hcond =>
    obtain ⟨hsome, hcont⟩ := hcond
    obtain rfl : s = { B with
        parts := B.parts.drop A.parts.length,
        drive := "", root := false, parent_level := 0 } := by
      simpa using h.symm
    obtain ⟨c, hc⟩ := Option.isSome_iff_exists.mp hsome
    have hfacts := common_with_some hc
    have hdrive : B.drive = A.drive := hfacts.1
    have hroot : B.root = A.root := hfacts.2.1
    have hpl : B.root = false → B.parent_level = A.parent_level := by
      rcases hfacts.2.2 with ⟨_, hp⟩ | ⟨_, _, hap, _⟩
      · exact hp
      · exact absurd hap (by simp)
    unfold GPath.containsB at hcont
    cases hc2 : GPath.common_with A B true true with
    | none => rw [hc2] at hcont; simp at hcont
    | some c2 =>
      rw [hc2] at hcont
      have hc2eq : c2 = A := of_decide_eq_true hcont
      have hfacts2 := common_with_some hc2
      have hzip : GPath.zipMatches A.parts B.parts = A.parts := by
        rcases hfacts2.2.2 with ⟨hrec, _⟩ | ⟨hrf, hne, _, _⟩
        · exact (congrArg GPath.parts (hc2eq.symm.trans hrec)).symm
        · exact absurd ((hpl (hroot.trans hrf)).symm) hne
      have happend := zipMatches_eq_append A.parts B.parts hzip
      have hpleq : A.parent_level = B.parent_level := by
        cases har : A.root
        · exact (hpl (hroot.trans har)).symm
        · rw [hA.2 har, hB.2 (hroot.trans har)]
      have hadd : GPath.add A { B with
          parts := B.parts.drop A.parts.length,
          drive := "", root := false, parent_level := 0 }
            = ⟨B.parts, B.root, B.drive, B.parent_level, A.encoding⟩ := by
        have hstep : GPath.add A { B with
            parts := B.parts.drop A.parts.length,
            drive := "", root := false, parent_level := 0 }
              = { A with parts := A.parts ++ B.parts.drop A.parts.length } := by
          simp [GPath.add, GPath.popParts]
        rw [hstep]
        rw [show ({ A with parts := A.parts ++ B.parts.drop A.parts.length } : GPath)
            = ⟨A.parts ++ B.parts.drop A.parts.length, A.root, A.drive,
                A.parent_level, A.encoding⟩ from rfl]
        rw [happend, ← hroot, ← hdrive, hpleq]
      constructor
      · rw [hadd]
        rfl
      · intro henc
        rw [hadd, henc]

/-- C5 counterexample: with a right operand carrying an explicit encoding
and a left operand without one, `subpath_from` is defined but the
concatenation differs from `B` (only) in the propagated encoding, so the
claimed `==` round trip fails. -/
theorem subpath_concat_encoding_counterexample :
    GPath.subpath_from (GPath.fromStringEnc "x" (some "ascii"))
        (GPath.fromString "")
      = some ⟨["x"], false, "", 0, some "ascii"⟩ ∧
    GPath.add (GPath.fromString "") ⟨["x"], false, "", 0, some "ascii"⟩
      ≠ GPath.fromStringEnc "x" (some "ascii") := by
  exact ⟨by decide, by decide⟩

/-- C5 witness: instantiation at `A = "a"`, `B = "a/b"`. -/
theorem subpath_concat_round_trip_witness :
    GPath.semTuple (GPath.add (GPath.fromString "a") ⟨["b"], false, "", 0, none⟩)
      = GPath.semTuple (GPath.fromString "a/b") :=
  (subpath_concat_round_trip (GPath.fromString "a") (GPath.fromString "a/b")
    ⟨["b"], false, "", 0, none⟩ (by decide) (by decide) (by decide)).1

/-- C6 (amended): the constructor always yields a value satisfying
`parent_level >= 0` and `root ⟹ parent_level == 0`, and every other public
operation preserves validity of its results given valid inputs — with the
exception of `as_relative`, which accepts any integer `parent_level` without
checking it (see the counterexample); here it is shown valid for the `None`
and non-negative arguments.  Validation of an invalid value is deferred to
the `_validate` call of a later operation rather than signalled at
construction. -/
theorem operations_preserve_invariants :
    (∀ (s : String) (enc : Option String), (GPath.fromStringEnc s enc).Valid) ∧
    (∀ p : GPath, (GPath.as_absolute p).Valid) ∧
    (∀ p : GPath, p.Valid → (GPath.as_relative p none).Valid) ∧
    (∀ (p : GPath) (n : Int), 0 ≤ n → (GPath.as_relative p (some n)).Valid) ∧
    (∀ (p q : GPath) (d : String),
      p.Valid → GPath.with_drive p d = some q → q.Valid) ∧
    (∀ a b : GPath, a.Valid → b.Valid → (GPath.add a b).Valid) ∧
    (∀ (a c : GPath) (n : Int), a.Valid → GPath.sub a n = some c → c.Valid) ∧
    (∀ (a c : GPath) (n : Int), a.Valid → GPath.mul a n = some c → c.Valid) ∧
    (∀ (a : GPath) (n : Int), a.Valid → (GPath.lshift a n).Valid) ∧
    (∀ (a : GPath) (n : Int), a.Valid → (GPath.rshift a n).Valid) ∧
    (∀ (a b c : GPath) (ac ap : Bool),
      a.Valid → GPath.common_with a b ac ap = some c → c.Valid) ∧
    (∀ a b c : GPath, GPath.subpath_from a b = some c → c.Valid) ∧
    (∀ a o r : GPath,
      a.Valid → o.Valid → GPath.relpath_from a o = some r → r.Valid) := by
  refine ⟨fromStringEnc_valid, as_absolute_valid,
    fun p hp => as_relative_valid_none hp,
    fun p n hn => as_relative_valid_some hn,
    fun p q d hp h => with_drive_valid hp h,
    fun a b ha hb => add_valid ha hb,
    fun a c n ha h => sub_valid ha h,
    fun a c n ha h => mul_valid ha h,
    fun a n ha => lshift_valid ha,
    fun a n ha => rshift_valid ha,
    fun a b c ac ap ha h => common_with_valid ha h,
    fun a b c h => subpath_from_valid h,
    fun a o r ha ho h => relpath_from_valid ha ho h⟩

/-- C6 counterexample: `as_relative(-1)` returns, without any error, a value
that violates the invariant `parent_level >= 0`; the invalid value escapes
to the caller instead of being rejected at the point of construction. -/
theorem as_relative_negative_counterexample :
    GPath.as_relative (GPath.fromString "a") (some (-1))
      = ⟨["a"], false, "", -1, none⟩ ∧
    ¬ (⟨["a"], false, "", -1, none⟩ : GPath).Valid := by
  exact ⟨by decide, by decide⟩

/-- C6 witness: instantiation of the concatenation clause. -/
theorem operations_preserve_invariants_witness :
    (GPath.add (GPath.fromString "a") (GPath.fromString "b")).Valid :=
  operations_preserve_invariants.2.2.2.2.2.1
    (GPath.fromString "a") (GPath.fromString "b") (by decide) (by decide)

/-- C7: partitioning `["a/b", "a/c", "../x"]` with `allow_current=True` and
`allow_parents=False` yields exactly two partitions: one keyed by `"a"` with
members `["b", "c"]` in input order, and one keyed by `"../x"` whose only
member is the empty relative path. -/
theorem partition_scenario :
    partition true false
        [GPath.fromString "a/b", GPath.fromString "a/c", GPath.fromString "../x"]
      = [(GPath.fromString "a",
            [some (GPath.fromString "b"), some (GPath.fromString "c")]),
         (GPath.fromString "../x", [some (GPath.fromString "")])] := by
  decide

/-- C8: during normalisation a `".."` on a rooted path is dropped with no
effect (`parent_level` stays 0 and no `".."` survives in `parts`), while on
non-rooted input a `".."` cancels the preceding named part when one exists
and otherwise accumulates (becoming `parent_level`); in particular
`"usr/../bin"` normalises to parts `["bin"]` with no root, drive or parent
level, and `"/a/../../b"` normalises to the rooted `["b"]`. -/
theorem normalisation_parent_handling :
    (∀ (s : String) (enc : Option String),
      (GPath.fromStringEnc s enc).root = true →
        (GPath.fromStringEnc s enc).parent_level = 0) ∧
    (∀ (s : String) (enc : Option String) (x : String),
      x ∈ (GPath.fromStringEnc s enc).parts → x ≠ ".." ∧ x ≠ "" ∧ x ≠ ".") ∧
    (∀ out : List String, out ≠ [] → out.getLast? ≠ some ".." →
      _normalise_step out ".." = out.dropLast) ∧
    (∀ out : List String, out = [] ∨ out.getLast? = some ".." →
      _normalise_step out ".." = out ++ [".."]) ∧
    GPath.fromString "usr/../bin" = ⟨["bin"], false, "", 0, none⟩ ∧
    GPath.fromString "/a/../../b" = ⟨["b"], true, "", 0, none⟩ := by
  refine ⟨fromStringEnc_root_parent, fromStringEnc_parts_clean, ?_, ?_,
    by decide, by decide⟩
  · intro out h1 h2
    rw [_normalise_step, if_neg (by decide), if_neg (by decide),
      if_pos rfl, if_pos ⟨h1, h2⟩]
  · intro out h
    rw [_normalise_step, if_neg (by decide), if_neg (by decide), if_pos rfl,
      if_neg ?hcond]
    case hcond =>
      intro hcontra
      rcases h with h | h
      · exact hcontra.1 h
      · exact hcontra.2 h

/-- C8 witness: instantiations of the three quantified clauses. -/
theorem normalisation_parent_handling_witness :
    (GPath.fromStringEnc "/.." none).parent_level = 0 ∧
    _normalise_step ["usr"] ".." = [] ∧
    _normalise_step [] ".." = [".."] :=
  ⟨normalisation_parent_handling.1 "/.." none (by decide),
    (normalisation_parent_handling.2.2.1 ["usr"] (by decide)
      (by decide)).trans (by decide),
    normalisation_parent_handling.2.2.2.1 [] (Or.inl rfl)⟩

/-- C9: the superseded revision's `__lt__` is a strict total order on path
values, given by lexicographic comparison of the tuples
`(root, namespace-drive, parent_level, parts)` with `false < true` on the
root flag, the drive as secondary key before the parent level, and parts
compared element-wise with a strict prefix below its extensions; every
relative path sorts below every absolute path, and among relative paths with
equal drives a lower parent level sorts first. -/
theorem legacy_lt_total_order :
    (∀ x y z : LegacyGPath,
      legacyLt x y = true → legacyLt y z = true → legacyLt x z = true) ∧
    (∀ x : LegacyGPath, legacyLt x x = false) ∧
    (∀ x y : LegacyGPath, legacyLt x y = true ∨ legacyLt y x = true ∨ x = y) ∧
    (∀ x y : LegacyGPath, x.root = false → y.root = true →
      legacyLt x y = true) ∧
    (∀ x y : LegacyGPath, x.root = false → y.root = false →
      x.namesp = y.namesp → x.parent_level < y.parent_level →
      legacyLt x y = true) ∧
    (∀ (x y : LegacyGPath) (n : Nat), x.root = y.root → x.namesp = y.namesp →
      x.parent_level = y.parent_level → x.parts = y.parts.take n →
      x.parts ≠ y.parts → legacyLt x y = true) := by
  refine ⟨legacyLt_trans, legacyLt_irrefl, legacyLt_total, ?_, ?_, ?_⟩
  · intro x y hx hy
    simp [legacyLt, hx, hy]
  · intro x y hx hy hn hp
    rw [legacyLt_eq_chain (hx.trans hy.symm)]
    simp [chainLtB, hn, strLtB_irrefl, hp]
  · intro x y n hr hn hp htake hne
    rw [legacyLt_eq_chain hr]
    simp only [chainLtB, hn, strLtB_irrefl, Bool.false_eq_true, if_false,
      hp, lt_irrefl]
    rw [htake]
    exact listLtB_of_take y.parts n (by rw [← htake]; exact hne)

/-- C9 witness: a relative path below an absolute one, and a strict prefix
below its extension. -/
theorem legacy_lt_total_order_witness :
    legacyLt ⟨[], "", false, 5⟩ ⟨[], "", true, 0⟩ = true ∧
    legacyLt ⟨["a"], "", false, 0⟩ ⟨["a", "b"], "", false, 0⟩ = true :=
  ⟨legacy_lt_total_order.2.2.2.1 ⟨[], "", false, 5⟩ ⟨[], "", true, 0⟩ rfl rfl,
    legacy_lt_total_order.2.2.2.2.2 ⟨["a"], "", false, 0⟩
      ⟨["a", "b"], "", false, 0⟩ 1 rfl rfl rfl (by decide) (by decide)⟩

/-- C10: `partition` declares `allow_parents=True` by default — the opposite
of `common_with`'s `allow_parents=False` default — and consequently, for any
non-empty input, `partition` called with its defaults returns partitions
whose member lists are all empty. -/
theorem partition_default_empty_members :
    (partitionDefault = fun gpaths => partition true true gpaths) ∧
    (GPath.common_with_default = fun a b => GPath.common_with a b true false) ∧
    (∀ gpaths : List GPath, gpaths ≠ [] →
      ∀ e ∈ partitionDefault gpaths, e.2 = ([] : List (Option GPath))) := by
  refine ⟨rfl, rfl, ?_⟩
  intro gpaths hne e he
  cases gpaths with
  | nil => exact absurd rfl hne
  | cons g0 rest =>
    unfold partitionDefault partition at he
    simp only [if_true] at he
    obtain ⟨e0, he0, heq⟩ := List.mem_map.mp he
    have h0 := foldl_partitionStep_allnil true rest [(g0, [])]
      (by intro x hx; simpa using congrArg Prod.snd (by simpa using hx)) e0 he0
    rw [← heq]
    simp [h0]

/-- C10 witness: the theorem applied to the concrete entry of the default
partition of `["a/b", "../x"]` (whose single partition is keyed by the
common parent anchor `".."` with an empty member list). -/
theorem partition_default_empty_members_witness :
    ((⟨⟨[], false, "", 1, none⟩, []⟩ :
        GPath × List (Option GPath))).2 = ([] : List (Option GPath)) :=
  partition_default_empty_members.2.2
    [GPath.fromString "a/b", GPath.fromString "../x"] (by decide)
    ⟨⟨[], false, "", 1, none⟩, []⟩ (by decide)

end GPathLib
